import Mathlib

/-!
Verification of the photo renumbering script (src/123.mjs).

The script scans a photo directory, classifies files into protected
(numeric name 1..19), already-numbered (any purely numeric name) and
renumber candidates (non-numeric names), allocates fresh ascending
numbers starting at 20 to the candidates, renames them with a two-phase
temp-name protocol, and emits an ordered manifest.

This file gives a shallow embedding of the script: filenames are
`String`, the directory listing is a `List` of entries, the live
filesystem consulted by `fs.existsSync` is an oracle `String → Bool`,
and the filesystem state acted on by `fs.renameSync` is a
`Finset String` of names.
-/

namespace Photo123

/-! ### Character-level groundwork -/

theorem uint32_le_iff (a b : UInt32) : a ≤ b ↔ a.toNat ≤ b.toNat := Iff.rfl

theorem char_isDigit_iff (c : Char) : c.isDigit = true ↔ 48 ≤ c.toNat ∧ c.toNat ≤ 57 := by
  simp [Char.isDigit, Char.toNat, uint32_le_iff]
  norm_num

theorem char_ofNat_toNat {n : Nat} (h : n.isValidChar) : (Char.ofNat n).toNat = n := by
  simp only [Char.ofNat]
  rw [dif_pos h]
  simp only [Char.ofNatAux, Char.toNat, UInt32.toNat]
  rfl

theorem char_toLower_toNat (c : Char) :
    c.toLower.toNat = if 65 ≤ c.toNat ∧ c.toNat ≤ 90 then c.toNat + 32 else c.toNat := by
  simp only [Char.toLower, ge_iff_le]
  by_cases h : 65 ≤ c.toNat ∧ c.toNat ≤ 90
  · rw [if_pos h, if_pos h, char_ofNat_toNat (Or.inl (by omega))]
  · rw [if_neg h, if_neg h]

theorem char_toLower_isDigit (c : Char) : c.toLower.isDigit = c.isDigit := by
  have hlow := char_toLower_toNat c
  by_cases hd : 65 ≤ c.toNat ∧ c.toNat ≤ 90
  · rw [if_pos hd] at hlow
    have h1 : c.isDigit = false := by
      rw [Bool.eq_false_iff, Ne, char_isDigit_iff]; omega
    have h2 : c.toLower.isDigit = false := by
      rw [Bool.eq_false_iff, Ne, char_isDigit_iff, hlow]; omega
    rw [h1, h2]
  · rw [if_neg hd] at hlow
    by_cases hdig : 48 ≤ c.toNat ∧ c.toNat ≤ 57
    · rw [(char_isDigit_iff c).mpr hdig, (char_isDigit_iff _).mpr (by rw [hlow]; exact hdig)]
    · have h1 : c.isDigit = false := by
        rw [Bool.eq_false_iff, Ne, char_isDigit_iff]; omega
      have h2 : c.toLower.isDigit = false := by
        rw [Bool.eq_false_iff, Ne, char_isDigit_iff, hlow]; omega
      rw [h1, h2]

/-- The decimal value of a list of digit characters, most significant first.
Models how the digit string of a purely numeric basename denotes a number. -/
def digitsToNat (l : List Char) : ℕ :=
  l.foldl (fun a c => a * 10 + (c.toNat - 48)) 0

theorem digitsToNat_append (a b : List Char) :
    digitsToNat (a ++ b) = (digitsToNat a) * 10 ^ b.length + digitsToNat b := by
  induction b using List.reverseRecOn with
  | nil => simp [digitsToNat]
  | append_singleton bs c ih =>
    rw [← List.append_assoc]
    simp only [digitsToNat, List.foldl_append, List.foldl_cons, List.foldl_nil] at *
    rw [ih]
    simp only [List.length_append, List.length_singleton]
    ring

/-- One decimal digit character. Models the digits produced by the JS
number-to-string conversion `String(n)`. -/
def digitChar10 (d : ℕ) : Char :=
  match d with
  | 0 => '0' | 1 => '1' | 2 => '2' | 3 => '3' | 4 => '4'
  | 5 => '5' | 6 => '6' | 7 => '7' | 8 => '8' | _ => '9'

theorem digitChar10_toNat {d : ℕ} (h : d < 10) : (digitChar10 d).toNat = 48 + d := by
  interval_cases d <;> rfl

theorem digitChar10_isDigit {d : ℕ} (h : d < 10) : (digitChar10 d).isDigit = true := by
  interval_cases d <;> rfl

theorem digitChar10_ne_dot {d : ℕ} (h : d < 10) : digitChar10 d ≠ '.' := by
  interval_cases d <;> decide

/-- Fuel-driven decimal rendering, most significant digit first.
Models the JS `String(n)` conversion for natural numbers. -/
def natDecimalAux : ℕ → ℕ → List Char → List Char
  | 0, _, acc => acc
  | fuel + 1, n, acc =>
    if n < 10 then digitChar10 n :: acc
    else natDecimalAux fuel (n / 10) (digitChar10 (n % 10) :: acc)

/-- Decimal digit string of a natural number; models JS `String(n)`. -/
def natDecimal (n : ℕ) : String :=
  ⟨natDecimalAux (n + 1) n []⟩

theorem natDecimalAux_acc (fuel n : ℕ) (acc : List Char) :
    natDecimalAux fuel n acc = natDecimalAux fuel n [] ++ acc := by
  induction fuel generalizing n acc with
  | zero => simp [natDecimalAux]
  | succ fuel ih =>
    simp only [natDecimalAux]
    by_cases h : n < 10
    · rw [if_pos h, if_pos h]; rfl
    · rw [if_neg h, if_neg h, ih (n / 10) (digitChar10 (n % 10) :: acc),
        ih (n / 10) [digitChar10 (n % 10)], List.append_assoc]
      rfl

theorem natDecimalAux_spec (fuel n : ℕ) (h : n < fuel) :
    natDecimalAux fuel n [] ≠ [] ∧
    (∀ c ∈ natDecimalAux fuel n [], c.isDigit = true) ∧
    digitsToNat (natDecimalAux fuel n []) = n := by
  induction fuel generalizing n with
  | zero => omega
  | succ fuel ih =>
    simp only [natDecimalAux]
    by_cases hn : n < 10
    · rw [if_pos hn]
      refine ⟨by simp, ?_, ?_⟩
      · intro c hc
        simp only [List.mem_singleton] at hc
        subst hc
        exact digitChar10_isDigit hn
      · simp [digitsToNat, digitChar10_toNat hn]
    · rw [if_neg hn, natDecimalAux_acc]
      have hdiv : n / 10 < fuel := by omega
      obtain ⟨hne, hdig, hval⟩ := ih (n / 10) hdiv
      refine ⟨by simp, ?_, ?_⟩
      · intro c hc
        rcases List.mem_append.mp hc with h1 | h1
        · exact hdig c h1
        · simp only [List.mem_singleton] at h1
          subst h1
          exact digitChar10_isDigit (by omega)
      · rw [digitsToNat_append, hval]
        simp [digitsToNat, digitChar10_toNat (Nat.mod_lt n (by omega))]
        omega

theorem natDecimal_ne_nil (n : ℕ) : (natDecimal n).data ≠ [] :=
  (natDecimalAux_spec (n + 1) n (by omega)).1

theorem natDecimal_all_digits (n : ℕ) : ∀ c ∈ (natDecimal n).data, c.isDigit = true :=
  (natDecimalAux_spec (n + 1) n (by omega)).2.1

theorem natDecimal_val (n : ℕ) : digitsToNat (natDecimal n).data = n :=
  (natDecimalAux_spec (n + 1) n (by omega)).2.2

/-! ### Path helpers: extension splitting (model of node:path extname/basename) -/

/-- Index of the last occurrence of `c`, if any. -/
def lastIdxOf (c : Char) : List Char → Option ℕ
  | [] => none
  | a :: as =>
    match lastIdxOf c as with
    | some i => some (i + 1)
    | none => if a = c then some 0 else none

theorem lastIdxOf_eq_none_iff (c : Char) (l : List Char) :
    lastIdxOf c l = none ↔ c ∉ l := by
  induction l with
  | nil => simp [lastIdxOf]
  | cons a as ih =>
    simp only [lastIdxOf, List.mem_cons]
    cases h : lastIdxOf c as with
    | some i =>
      rw [h] at ih
      have hin : c ∈ as := by
        by_contra hn
        exact absurd (ih.mpr hn) (by simp)
      simp [hin]
    | none =>
      rw [h] at ih
      have hin : c ∉ as := ih.mp rfl
      by_cases hac : a = c
      · subst hac
        simp [hin]
      · simp only [if_neg hac, true_iff]
        push_neg
        exact ⟨fun he => hac he.symm, hin⟩

theorem lastIdxOf_append_right (c : Char) (xs ys : List Char) (i : ℕ)
    (h : lastIdxOf c ys = some i) :
    lastIdxOf c (xs ++ ys) = some (xs.length + i) := by
  induction xs with
  | nil => simpa using h
  | cons a as ih =>
    show (match lastIdxOf c (as ++ ys) with
      | some i => some (i + 1)
      | none => if a = c then some 0 else none) = some ((a :: as).length + i)
    rw [ih]
    simp only [List.length_cons]
    congr 1
    omega

theorem lastIdxOf_spec (c : Char) (l : List Char) (i : ℕ) (h : lastIdxOf c l = some i) :
    ∃ a b, l = a ++ c :: b ∧ a.length = i ∧ c ∉ b := by
  induction l generalizing i with
  | nil => simp [lastIdxOf] at h
  | cons x xs ih =>
    simp only [lastIdxOf] at h
    cases hxs : lastIdxOf c xs with
    | some j =>
      rw [hxs] at h
      obtain ⟨a, b, hab, hlen, hnotin⟩ := ih j hxs
      refine ⟨x :: a, b, by rw [hab]; rfl, ?_, hnotin⟩
      simp only [List.length_cons, hlen]
      simp only [Option.some.injEq] at h
      omega
    | none =>
      rw [hxs] at h
      by_cases hxc : x = c
      · rw [if_pos hxc] at h
        simp only [Option.some.injEq] at h
        exact ⟨[], xs, by subst hxc; rfl, by simp [← h], (lastIdxOf_eq_none_iff c xs).mp hxs⟩
      · rw [if_neg hxc] at h
        exact absurd h (by simp)

/-- The split position of the filename extension, or `none` when there is no
extension.  Models `path.extname` for names without path separators: the
extension starts at the last dot, except that a dot in first position or the
name `".."` yields no extension. -/
def extIdx (f : String) : Option ℕ :=
  match lastIdxOf '.' f.data with
  | none => none
  | some 0 => none
  | some (i + 1) => if f.data = ['.', '.'] then none else some (i + 1)

/-- `path.extname` for a bare filename. -/
def extname (f : String) : String :=
  match extIdx f with
  | none => ""
  | some i => ⟨f.data.drop i⟩

/-- `path.basename(f, path.extname(f))` for a bare filename: the name with its
extension removed. -/
def baseNoExt (f : String) : List Char :=
  match extIdx f with
  | none => f.data
  | some i => f.data.take i

/-- `parseLeadingNumber` from the source: the numeric value of the name when
the name minus its extension is purely digits, and `null` otherwise. -/
def parseLeadingNumber (f : String) : Option ℕ :=
  let base := baseNoExt f
  if base.isEmpty then none
  else if base.all Char.isDigit then some (digitsToNat base) else none

/-- Lowercasing of a string, character by character; models
`String.prototype.toLowerCase` on the ASCII extensions involved. -/
def strLower (s : String) : String := ⟨s.data.map Char.toLower⟩

/-- The recognized image extensions (`exts` in the source). -/
def exts : List String := [".jpg", ".jpeg", ".png", ".webp", ".gif", ".avif"]

/-- `isPhoto` from the source. -/
def isPhoto (fileName : String) : Bool := exts.contains (strLower (extname fileName))

/-- Configured protected range lower bound. -/
def PROTECT_MIN : ℕ := 1

/-- Configured protected range upper bound. -/
def PROTECT_MAX : ℕ := 19

/-- Configured allocation floor. -/
def START_NUMBER : ℕ := 20

/-- Configured zero padding width (0 in the source: no padding). -/
def PAD : ℕ := 0

/-- The constant display label of every manifest entry. -/
def LABEL : String := "❤️"

/-- `String.prototype.padStart(w, "0")`. -/
def padStartZeros (w : ℕ) (s : String) : String :=
  ⟨List.replicate (w - s.data.length) '0' ++ s.data⟩

/-- `fmtNum` from the source, with the padding width as an explicit
configuration argument: plain decimal when the width is 0, else the decimal
digits left-padded with zeros to the width. -/
def fmtNumWith (pad n : ℕ) : String :=
  if pad = 0 then natDecimal n else padStartZeros pad (natDecimal n)

/-- `fmtNum` at the configured padding width. -/
def fmtNum (n : ℕ) : String := fmtNumWith PAD n

/-- `isProtectedFile` from the source. -/
def isProtectedFile (fileName : String) : Bool :=
  match parseLeadingNumber fileName with
  | some n => decide (PROTECT_MIN ≤ n) && decide (n ≤ PROTECT_MAX)
  | none => false

/-- `isAlreadyNumbered` from the source. -/
def isAlreadyNumbered (fileName : String) : Bool :=
  (parseLeadingNumber fileName).isSome

/-- `getReservedNumbers` from the source: the set of numeric values of all
purely numeric file names. -/
def getReservedNumbers (files : List String) : Finset ℕ :=
  files.foldl
    (fun s f => match parseLeadingNumber f with | some n => insert n s | none => s) ∅

/-- A directory entry as returned by `readdirSync(..., withFileTypes)`:
a name together with whether the entry is a regular file. -/
structure Dirent where
  name : String
  isFile : Bool
deriving DecidableEq

/-- `getAllPhotoFiles` from the source: regular files whose extension is a
recognized image extension. -/
def getAllPhotoFiles (entries : List Dirent) : List String :=
  ((entries.filter (fun d => d.isFile)).map (fun d => d.name)).filter
    (fun n => isPhoto n)

/-! ### Natural-order comparison: model of `localeCompare` with numeric
collation and base sensitivity -/

/-- A collation token: a maximal digit run (value, digit count, first digit
character) or a single case-folded non-digit character. -/
inductive NTok where
  | num : ℕ → ℕ → Char → NTok
  | chr : Char → NTok
deriving DecidableEq

/-- Tokenize a name for natural comparison: maximal digit runs become numeric
tokens, other characters become case-folded character tokens. -/
def natTokens : List Char → List NTok
  | [] => []
  | c :: cs =>
    if c.isDigit then
      match natTokens cs with
      | NTok.num v len _ :: rest =>
        NTok.num ((c.toNat - 48) * 10 ^ len + v) (len + 1) c :: rest
      | ts => NTok.num (c.toNat - 48) 1 c :: ts
    else NTok.chr c.toLower :: natTokens cs

/-- Three-way comparison of naturals. -/
def cmpN (m n : ℕ) : Ordering :=
  if m < n then Ordering.lt else if n < m then Ordering.gt else Ordering.eq

/-- Compare two collation tokens: digit runs by numeric value, characters by
code point, and a digit run against a character by the first characters. -/
def tokCmp : NTok → NTok → Ordering
  | NTok.num v _ _, NTok.num w _ _ => cmpN v w
  | NTok.chr a, NTok.chr b => cmpN a.toNat b.toNat
  | NTok.num _ _ d, NTok.chr c => cmpN d.toNat c.toNat
  | NTok.chr c, NTok.num _ _ d => cmpN c.toNat d.toNat

/-- Lexicographic comparison of token lists. -/
def listCmp : List NTok → List NTok → Ordering
  | [], [] => Ordering.eq
  | [], _ :: _ => Ordering.lt
  | _ :: _, [] => Ordering.gt
  | a :: as, b :: bs =>
    match tokCmp a b with
    | Ordering.eq => listCmp as bs
    | Ordering.lt => Ordering.lt
    | Ordering.gt => Ordering.gt

/-- `naturalSort` from the source: numeric-aware, case-insensitive three-way
comparison of names. -/
def natCmp (a b : String) : Ordering := listCmp (natTokens a.data) (natTokens b.data)

/-- The comparator as a boolean relation: the sort places `a` no later than
`b` exactly when the comparator value is not positive. -/
def natLE (a b : String) : Bool :=
  match natCmp a b with
  | Ordering.gt => false
  | _ => true

/-! ### Stable sorting by a comparator (model of `Array.prototype.sort`) -/

/-- Insert `a` after every element that compares no greater than it: the step
of a stable insertion sort. -/
def insertOrd (le : α → α → Bool) (a : α) : List α → List α
  | [] => [a]
  | b :: bs => if le b a then b :: insertOrd le a bs else a :: b :: bs

/-- Stable sort by a boolean comparator; models the JS stable `sort`. -/
def isort (le : α → α → Bool) (l : List α) : List α :=
  l.foldl (fun acc a => insertOrd le a acc) []

/-! ### The allocator -/

/-- Bounded form of the skip-reserved loop. -/
def findFreeAux (reserved : Finset ℕ) : ℕ → ℕ → ℕ
  | 0, n => n
  | fuel + 1, n => if n ∈ reserved then findFreeAux reserved fuel (n + 1) else n

/-- `while (reservedNumbers.has(nextNum)) nextNum++`: the first number at or
after `n` outside the reserved set.  The reserved set is finite, so
`card + 1` steps always reach a free number. -/
def findFree (reserved : Finset ℕ) (n : ℕ) : ℕ :=
  findFreeAux reserved (reserved.card + 1) n

/-- A rename instruction `{ from, to }` of the source, with fields `src`
(the original name) and `dst` (the final name). -/
structure RenamePair where
  src : String
  dst : String
deriving DecidableEq

/-- The main allocation loop (lines 140-157 of the source).  For each
candidate: advance the cursor past reserved numbers; compute the target name
from the number and the lowercased original extension; if a file with that
name already exists (`exists(to)`), reserve the number, advance the cursor
and `continue` with the next candidate; otherwise record the pair, reserve
the number and advance the cursor. -/
def allocLoop (dirHas : String → Bool) : List String → ℕ → Finset ℕ → List RenamePair
  | [], _, _ => []
  | f :: rest, cursor, reserved =>
    let n := findFree reserved cursor
    let t := fmtNum n ++ strLower (extname f)
    if dirHas t then allocLoop dirHas rest (n + 1) (insert n reserved)
    else ⟨f, t⟩ :: allocLoop dirHas rest (n + 1) (insert n reserved)

/-- The allocation loop instrumented with the assigned number of each pair. -/
def allocLoopN (dirHas : String → Bool) : List String → ℕ → Finset ℕ → List (String × ℕ)
  | [], _, _ => []
  | f :: rest, cursor, reserved =>
    let n := findFree reserved cursor
    let t := fmtNum n ++ strLower (extname f)
    if dirHas t then allocLoopN dirHas rest (n + 1) (insert n reserved)
    else (f, n) :: allocLoopN dirHas rest (n + 1) (insert n reserved)

/-! ### The main program (lines 119-157) -/

/-- Files that already have a purely numeric name (line 126). -/
def alreadyNumberedOf (allFiles : List String) : List String :=
  allFiles.filter (fun f => isAlreadyNumbered f)

/-- Renumber candidates in their processing order: the non-numeric names,
naturally sorted (lines 129 and 138). -/
def toRenumberSorted (allFiles : List String) : List String :=
  isort natLE (allFiles.filter (fun f => !(isAlreadyNumbered f)))

/-- The rename pairs computed by one run of the main program from a directory
listing `allFiles` and the `fs.existsSync` oracle `dirHas`. -/
def mainPairs (dirHas : String → Bool) (allFiles : List String) : List RenamePair :=
  allocLoop dirHas (toRenumberSorted allFiles) START_NUMBER
    (getReservedNumbers (alreadyNumberedOf allFiles))

/-! ### The renamer (`renameSafely`), over a set-of-names filesystem state -/

/-- Effect of `fs.renameSync(dir/a, dir/b)` on the set of names present in
the directory. -/
def renameFS (s : Finset String) (a b : String) : Finset String :=
  insert b (s.erase a)

/-- Phase 1 of `renameSafely`: every source moves to its temporary name.
The function `tmp` abstracts `toTempName`, whose timestamp and random
components the source uses to make temporary names unique and fresh. -/
def phase1 (tmp : String → String) (pairs : List RenamePair) (s : Finset String) :
    Finset String :=
  pairs.foldl (fun st p => renameFS st p.src (tmp p.src)) s

/-- Phase 2 of `renameSafely`: every temporary name moves to its final name. -/
def phase2 (tmp : String → String) (pairs : List RenamePair) (s : Finset String) :
    Finset String :=
  pairs.foldl (fun st p => renameFS st (tmp p.src) p.dst) s

/-- `renameSafely` from the source: phase 1 over the whole batch, then
phase 2. -/
def renameSafely (tmp : String → String) (pairs : List RenamePair) (s : Finset String) :
    Finset String :=
  phase2 tmp pairs (phase1 tmp pairs s)

/-! ### The manifest builder -/

/-- One record of the generated manifest. -/
structure ManifestEntry where
  src : String
  label : String
deriving DecidableEq

/-- The numeric-named entries of a listing, each with its parsed value
(the `numbered` list of `buildPhotoStream`). -/
def numberedOf (files : List String) : List (String × ℕ) :=
  files.filterMap (fun f => (parseLeadingNumber f).map (fun n => (f, n)))

/-- The non-numeric-named entries of a listing (the `other` list of
`buildPhotoStream`). -/
def otherOf (files : List String) : List String :=
  files.filter (fun f => (parseLeadingNumber f).isNone)

/-- The `(a, b) => a.n - b.n` comparator of `buildPhotoStream` as a boolean
relation: ascending by parsed value. -/
def numLE (a b : String × ℕ) : Bool := decide (a.2 ≤ b.2)

/-- `buildPhotoStream` from the source: split the final listing into numeric
and non-numeric names, sort the numeric ones ascending by value and the rest
naturally, concatenate numeric-first, and emit one record per name. -/
def buildPhotoStream (files : List String) : List ManifestEntry :=
  ((isort numLE (numberedOf files)).map (fun x => x.1) ++
      isort natLE (otherOf files)).map
    (fun name => ⟨"./photos/" ++ name, LABEL⟩)

/-! ### Basic lemmas about the embedded operations -/

theorem str_data_append (a b : String) : (a ++ b).data = a.data ++ b.data := rfl

theorem char_isDigit_ne (c d : Char) (h : c.isDigit = true) (h2 : d.isDigit = false) :
    c ≠ d := by
  intro he
  rw [he, h2] at h
  exact absurd h (by simp)

theorem char_isDigit_ne_dot (c : Char) (h : c.isDigit = true) : c ≠ '.' :=
  char_isDigit_ne c '.' h (by decide)

/-- Shape of every string `path.extname` can return: empty, or a dot followed
by dot-free text. -/
def ExtShape (e : String) : Prop :=
  e.data = [] ∨ ∃ t, e.data = '.' :: t ∧ '.' ∉ t

theorem extIdx_lastIdxOf (f : String) (i : ℕ) (h : extIdx f = some i) :
    lastIdxOf '.' f.data = some i := by
  unfold extIdx at h
  split at h
  · exact absurd h (by simp)
  · exact absurd h (by simp)
  · rename_i heq
    split at h
    · exact absurd h (by simp)
    · simp only [Option.some.injEq] at h
      rw [heq]
      exact congrArg some h

theorem extShape_extname (f : String) : ExtShape (extname f) := by
  unfold extname
  cases h : extIdx f with
  | none => exact Or.inl rfl
  | some i =>
    obtain ⟨a, b, hab, hlen, hnotin⟩ :=
      lastIdxOf_spec '.' f.data i (extIdx_lastIdxOf f i h)
    refine Or.inr ⟨b, ?_, hnotin⟩
    show (f.data.drop i) = '.' :: b
    rw [hab, ← hlen, List.drop_left' rfl]

theorem extShape_strLower (e : String) (h : ExtShape e) : ExtShape (strLower e) := by
  rcases h with h | ⟨t, ht, hnotin⟩
  · left
    show e.data.map Char.toLower = []
    rw [h]
    rfl
  · right
    refine ⟨t.map Char.toLower, ?_, ?_⟩
    · show e.data.map Char.toLower = '.' :: t.map Char.toLower
      rw [ht]
      rfl
    · intro hmem
      obtain ⟨c, hc, hlow⟩ := List.mem_map.mp hmem
      have hceq : c = '.' := by
        have h1 := char_toLower_toNat c
        rw [hlow] at h1
        have hdot : ('.' : Char).toNat = 46 := by decide
        by_cases hcase : 65 ≤ c.toNat ∧ c.toNat ≤ 90
        · rw [if_pos hcase] at h1
          omega
        · rw [if_neg hcase] at h1
          have h2 : c.toNat = ('.' : Char).toNat := h1.symm
          exact Char.eq_of_val_eq (UInt32.toNat.inj h2)
      exact hnotin (hceq ▸ hc)

/-- Every character of a `fmtNumWith` rendering is a digit. -/
theorem fmtNumWith_all_digits (pad n : ℕ) :
    ∀ c ∈ (fmtNumWith pad n).data, c.isDigit = true := by
  intro c hc
  unfold fmtNumWith at hc
  by_cases h : pad = 0
  · rw [if_pos h] at hc
    exact natDecimal_all_digits n c hc
  · rw [if_neg h] at hc
    simp only [padStartZeros] at hc
    rcases List.mem_append.mp hc with h1 | h1
    · rw [List.eq_of_mem_replicate h1]
      decide
    · exact natDecimal_all_digits n c h1

theorem fmtNumWith_ne_nil (pad n : ℕ) : (fmtNumWith pad n).data ≠ [] := by
  unfold fmtNumWith
  by_cases h : pad = 0
  · rw [if_pos h]
    exact natDecimal_ne_nil n
  · rw [if_neg h]
    simp only [padStartZeros]
    intro hc
    exact natDecimal_ne_nil n (List.append_eq_nil.mp hc).2

theorem digitsToNat_replicate_zero (k : ℕ) :
    digitsToNat (List.replicate k '0') = 0 := by
  induction k with
  | zero => rfl
  | succ k ih =>
    rw [List.replicate_succ', digitsToNat_append]
    rw [show List.replicate k '0' = List.replicate k '0' from rfl] at ih
    rw [ih]
    rfl

/-- The digit string of `fmtNumWith` denotes the number itself: zero padding
does not change the value. -/
theorem fmtNumWith_val (pad n : ℕ) : digitsToNat (fmtNumWith pad n).data = n := by
  unfold fmtNumWith
  by_cases h : pad = 0
  · rw [if_pos h]
    exact natDecimal_val n
  · rw [if_neg h]
    simp only [padStartZeros]
    rw [digitsToNat_append, digitsToNat_replicate_zero, natDecimal_val]
    ring

theorem extIdx_eq_none (f : String) (h : lastIdxOf '.' f.data = none) :
    extIdx f = none := by
  unfold extIdx
  rw [h]

theorem extIdx_eq_some (f : String) (m : ℕ) (hdd : f.data ≠ ['.', '.'])
    (h : lastIdxOf '.' f.data = some (m + 1)) : extIdx f = some (m + 1) := by
  unfold extIdx
  rw [h]
  show (if f.data = ['.', '.'] then none else some (m + 1)) = some (m + 1)
  rw [if_neg hdd]

theorem baseNoExt_of_none (f : String) (h : extIdx f = none) : baseNoExt f = f.data := by
  unfold baseNoExt
  rw [h]

theorem baseNoExt_of_some (f : String) (i : ℕ) (h : extIdx f = some i) :
    baseNoExt f = f.data.take i := by
  unfold baseNoExt
  rw [h]

theorem parse_of_base (f : String) (s : List Char) (hbase : baseNoExt f = s)
    (hne : s ≠ []) (hdig : ∀ c ∈ s, c.isDigit = true) :
    parseLeadingNumber f = some (digitsToNat s) := by
  unfold parseLeadingNumber
  rw [hbase]
  show (if s.isEmpty = true then none
    else if s.all Char.isDigit = true then some (digitsToNat s) else none) =
    some (digitsToNat s)
  rw [if_neg (by simp [hne]), if_pos (List.all_eq_true.mpr hdig)]

/-- Splitting a digits-plus-extension name: a nonempty all-digit string
followed by an extension-shaped suffix parses to the value of the digits. -/
theorem parse_digits_append (s : List Char) (e : String)
    (hne : s ≠ []) (hdig : ∀ c ∈ s, c.isDigit = true) (hshape : ExtShape e) :
    parseLeadingNumber ⟨s ++ e.data⟩ = some (digitsToNat s) := by
  have hnodot : '.' ∉ s := fun hmem => char_isDigit_ne_dot _ (hdig _ hmem) rfl
  rcases hshape with h | ⟨t, ht, hnotin⟩
  · have hdata : (String.mk (s ++ e.data)).data = s := by rw [h, List.append_nil]
    have hidx : lastIdxOf '.' (String.mk (s ++ e.data)).data = none := by
      rw [hdata]
      exact (lastIdxOf_eq_none_iff '.' s).mpr hnodot
    apply parse_of_base _ s _ hne hdig
    rw [baseNoExt_of_none _ (extIdx_eq_none _ hidx), hdata]
  · have hdata : (String.mk (s ++ e.data)).data = s ++ '.' :: t := by rw [ht]
    have hin : lastIdxOf '.' ('.' :: t) = some 0 := by
      simp [lastIdxOf, (lastIdxOf_eq_none_iff '.' t).mpr hnotin]
    have hidx : lastIdxOf '.' (String.mk (s ++ e.data)).data = some (s.length + 0) := by
      rw [hdata]
      exact lastIdxOf_append_right '.' s ('.' :: t) 0 hin
    have hslen : s.length ≠ 0 := fun h0 => hne (List.length_eq_zero.mp h0)
    obtain ⟨m, hm⟩ : ∃ m, s.length = m + 1 := ⟨s.length - 1, by omega⟩
    rw [Nat.add_zero, hm] at hidx
    have hnotdd : (String.mk (s ++ e.data)).data ≠ ['.', '.'] := by
      rw [hdata]
      intro hc
      obtain ⟨c, hc1⟩ := List.exists_mem_of_ne_nil s hne
      have hcd := hdig c hc1
      have hcin : c ∈ ['.', '.'] := hc ▸ List.mem_append_left _ hc1
      simp only [List.mem_cons, List.mem_singleton, List.not_mem_nil, or_false] at hcin
      rcases hcin with rfl | rfl <;> simp at hcd
    apply parse_of_base _ s _ hne hdig
    rw [baseNoExt_of_some _ (m + 1) (extIdx_eq_some _ m hnotdd hidx), hdata, ← hm,
      List.take_left]

/-- Parsing inverts formatting: the target name built from number `n` and an
extension-shaped suffix parses back to `n`. -/
theorem parse_fmt (pad n : ℕ) (e : String) (hshape : ExtShape e) :
    parseLeadingNumber (fmtNumWith pad n ++ e) = some n := by
  have h := parse_digits_append (fmtNumWith pad n).data e (fmtNumWith_ne_nil pad n)
    (fmtNumWith_all_digits pad n) hshape
  rw [fmtNumWith_val] at h
  have : fmtNumWith pad n ++ e = ⟨(fmtNumWith pad n).data ++ e.data⟩ := rfl
  rw [this]
  exact h

/-- Membership in the reserved-number set. -/
theorem mem_getReservedNumbers_aux (l : List String) (s : Finset ℕ) (n : ℕ) :
    (n ∈ l.foldl
      (fun s f => match parseLeadingNumber f with | some n => insert n s | none => s) s) ↔
    n ∈ s ∨ ∃ f ∈ l, parseLeadingNumber f = some n := by
  induction l generalizing s with
  | nil => simp
  | cons f fs ih =>
    simp only [List.foldl_cons, ih, List.mem_cons]
    cases h : parseLeadingNumber f with
    | some m =>
      simp only [h, Finset.mem_insert]
      constructor
      · rintro (h1 | h1)
        · rcases h1 with rfl | h1
          · exact Or.inr ⟨f, Or.inl rfl, h⟩
          · exact Or.inl h1
        · obtain ⟨g, hg, hgp⟩ := h1
          exact Or.inr ⟨g, Or.inr hg, hgp⟩
      · rintro (h1 | ⟨g, (rfl | hg), hgp⟩)
        · exact Or.inl (Or.inr h1)
        · rw [h] at hgp
          simp only [Option.some.injEq] at hgp
          exact Or.inl (Or.inl hgp.symm)
        · exact Or.inr ⟨g, hg, hgp⟩
    | none =>
      simp only [h]
      constructor
      · rintro (h1 | ⟨g, hg, hgp⟩)
        · exact Or.inl h1
        · exact Or.inr ⟨g, Or.inr hg, hgp⟩
      · rintro (h1 | ⟨g, (rfl | hg), hgp⟩)
        · exact Or.inl h1
        · rw [h] at hgp
          exact absurd hgp (by simp)
        · exact Or.inr ⟨g, hg, hgp⟩

theorem mem_getReservedNumbers (l : List String) (n : ℕ) :
    n ∈ getReservedNumbers l ↔ ∃ f ∈ l, parseLeadingNumber f = some n := by
  unfold getReservedNumbers
  rw [mem_getReservedNumbers_aux]
  simp

/-! ### findFree: the skip-reserved loop finds the first free number -/

/-- `m` is the first number at or above `floor` outside `reserved`. -/
def IsFirstFree (reserved : Finset ℕ) (floor m : ℕ) : Prop :=
  floor ≤ m ∧ m ∉ reserved ∧ ∀ k, floor ≤ k → k < m → k ∈ reserved

theorem findFreeAux_spec (reserved : Finset ℕ) (fuel n : ℕ)
    (h : (reserved.filter (fun m => n ≤ m)).card < fuel) :
    IsFirstFree reserved n (findFreeAux reserved fuel n) := by
  induction fuel generalizing n with
  | zero => omega
  | succ fuel ih =>
    simp only [findFreeAux]
    by_cases hn : n ∈ reserved
    · rw [if_pos hn]
      have hsub : reserved.filter (fun m => n + 1 ≤ m) ⊆
          (reserved.filter (fun m => n ≤ m)).erase n := by
        intro x hx
        simp only [Finset.mem_filter] at hx
        exact Finset.mem_erase.mpr ⟨by omega, Finset.mem_filter.mpr ⟨hx.1, by omega⟩⟩
      have hcard : (reserved.filter (fun m => n + 1 ≤ m)).card < fuel := by
        have h1 := Finset.card_le_card hsub
        have h2 := Finset.card_erase_le (a := n) (s := reserved.filter (fun m => n ≤ m))
        have h3 : n ∈ reserved.filter (fun m => n ≤ m) :=
          Finset.mem_filter.mpr ⟨hn, le_refl n⟩
        have h4 := Finset.card_erase_of_mem h3
        have h5 : 0 < (reserved.filter (fun m => n ≤ m)).card :=
          Finset.card_pos.mpr ⟨n, h3⟩
        omega
      obtain ⟨ih1, ih2, ih3⟩ := ih (n + 1) hcard
      refine ⟨by omega, ih2, ?_⟩
      intro k hk1 hk2
      rcases Nat.eq_or_lt_of_le hk1 with rfl | hlt
      · exact hn
      · exact ih3 k (by omega) hk2
    · rw [if_neg hn]
      exact ⟨le_refl n, hn, fun k h1 h2 => absurd h2 (by omega)⟩

theorem findFree_spec (reserved : Finset ℕ) (n : ℕ) :
    IsFirstFree reserved n (findFree reserved n) := by
  apply findFreeAux_spec
  have := Finset.card_filter_le reserved (fun m => n ≤ m)
  omega

theorem findFree_not_mem (reserved : Finset ℕ) (n : ℕ) :
    findFree reserved n ∉ reserved := (findFree_spec reserved n).2.1

theorem findFree_ge (reserved : Finset ℕ) (n : ℕ) :
    n ≤ findFree reserved n := (findFree_spec reserved n).1

/-! ### Sorting lemmas -/

theorem insertOrd_perm (le : α → α → Bool) (a : α) (l : List α) :
    (insertOrd le a l).Perm (a :: l) := by
  induction l with
  | nil => exact List.Perm.refl [a]
  | cons b bs ih =>
    simp only [insertOrd]
    by_cases h : le b a = true
    · rw [if_pos h]
      exact (ih.cons b).trans (List.Perm.swap a b bs)
    · rw [if_neg h]

theorem mem_insertOrd (le : α → α → Bool) (a x : α) (l : List α) :
    x ∈ insertOrd le a l ↔ x = a ∨ x ∈ l := by
  rw [(insertOrd_perm le a l).mem_iff]
  simp

theorem pairwise_insertOrd (le : α → α → Bool)
    (htot : ∀ a b, le a b = true ∨ le b a = true)
    (htrans : ∀ a b c, le a b = true → le b c = true → le a c = true)
    (a : α) (l : List α) (h : l.Pairwise (fun x y => le x y = true)) :
    (insertOrd le a l).Pairwise (fun x y => le x y = true) := by
  induction l with
  | nil => simp [insertOrd]
  | cons b bs ih =>
    rcases List.pairwise_cons.mp h with ⟨hb, hbs⟩
    simp only [insertOrd]
    by_cases hba : le b a = true
    · rw [if_pos hba]
      refine List.pairwise_cons.mpr ⟨?_, ih hbs⟩
      intro x hx
      rcases (mem_insertOrd le a x bs).mp hx with rfl | hx
      · exact hba
      · exact hb x hx
    · rw [if_neg hba]
      have hab : le a b = true := (htot a b).resolve_right hba
      refine List.pairwise_cons.mpr ⟨?_, h⟩
      intro x hx
      rcases List.mem_cons.mp hx with rfl | hx
      · exact hab
      · exact htrans a b x hab (hb x hx)

theorem isort_perm_aux (le : α → α → Bool) :
    ∀ (l acc : List α), (l.foldl (fun acc a => insertOrd le a acc) acc).Perm (acc ++ l) := by
  intro l
  induction l with
  | nil => simp
  | cons a as ih =>
    intro acc
    simp only [List.foldl_cons]
    refine (ih (insertOrd le a acc)).trans ?_
    refine (List.Perm.append_right as (insertOrd_perm le a acc)).trans ?_
    exact List.perm_middle.symm

/-- The sorted list is a permutation of the input. -/
theorem isort_perm (le : α → α → Bool) (l : List α) : (isort le l).Perm l := by
  simpa using isort_perm_aux le l []

theorem mem_isort (le : α → α → Bool) (x : α) (l : List α) :
    x ∈ isort le l ↔ x ∈ l := (isort_perm le l).mem_iff

theorem isort_pairwise_aux (le : α → α → Bool)
    (htot : ∀ a b, le a b = true ∨ le b a = true)
    (htrans : ∀ a b c, le a b = true → le b c = true → le a c = true) :
    ∀ (l acc : List α), acc.Pairwise (fun x y => le x y = true) →
      (l.foldl (fun acc a => insertOrd le a acc) acc).Pairwise
        (fun x y => le x y = true) := by
  intro l
  induction l with
  | nil => exact fun acc h => h
  | cons a as ih =>
    intro acc h
    exact ih (insertOrd le a acc) (pairwise_insertOrd le htot htrans a acc h)

/-- The sort output is ordered by the comparator, for total transitive
comparators. -/
theorem isort_pairwise (le : α → α → Bool)
    (htot : ∀ a b, le a b = true ∨ le b a = true)
    (htrans : ∀ a b c, le a b = true → le b c = true → le a c = true)
    (l : List α) :
    (isort le l).Pairwise (fun x y => le x y = true) :=
  isort_pairwise_aux le htot htrans l [] List.Pairwise.nil

/-! ### Allocator lemmas -/

theorem allocLoopN_length_le (d : String → Bool) :
    ∀ (l : List String) (c : ℕ) (r : Finset ℕ), (allocLoopN d l c r).length ≤ l.length := by
  intro l
  induction l with
  | nil => intro c r; simp [allocLoopN]
  | cons f rest ih =>
    intro c r
    simp only [allocLoopN]
    by_cases h : d (fmtNum (findFree r c) ++ strLower (extname f)) = true
    · rw [if_pos h]
      exact (ih _ _).trans (by simp)
    · rw [if_neg h]
      simpa using ih _ _

/-- The source loop produces exactly the pairs of the instrumented loop, the
final name being the formatted number followed by the lowercased original
extension. -/
theorem allocLoop_eq_mapN (d : String → Bool) :
    ∀ (l : List String) (c : ℕ) (r : Finset ℕ),
      allocLoop d l c r = (allocLoopN d l c r).map
        (fun p => ⟨p.1, fmtNum p.2 ++ strLower (extname p.1)⟩) := by
  intro l
  induction l with
  | nil => intro c r; rfl
  | cons f rest ih =>
    intro c r
    simp only [allocLoop, allocLoopN]
    by_cases h : d (fmtNum (findFree r c) ++ strLower (extname f)) = true
    · rw [if_pos h, if_pos h]
      exact ih _ _
    · rw [if_neg h, if_neg h]
      simp only [List.map_cons]
      rw [ih]

theorem allocLoopN_src_mem (d : String → Bool) :
    ∀ (l : List String) (c : ℕ) (r : Finset ℕ) (p : String × ℕ),
      p ∈ allocLoopN d l c r → p.1 ∈ l := by
  intro l
  induction l with
  | nil => intro c r p h; simp [allocLoopN] at h
  | cons f rest ih =>
    intro c r p h
    simp only [allocLoopN] at h
    by_cases hd : d (fmtNum (findFree r c) ++ strLower (extname f)) = true
    · rw [if_pos hd] at h
      exact List.mem_cons_of_mem f (ih _ _ p h)
    · rw [if_neg hd] at h
      rcases List.mem_cons.mp h with rfl | h
      · exact List.mem_cons_self f rest
      · exact List.mem_cons_of_mem f (ih _ _ p h)

theorem allocLoopN_num_ge (d : String → Bool) :
    ∀ (l : List String) (c : ℕ) (r : Finset ℕ) (p : String × ℕ),
      p ∈ allocLoopN d l c r → c ≤ p.2 := by
  intro l
  induction l with
  | nil => intro c r p h; simp [allocLoopN] at h
  | cons f rest ih =>
    intro c r p h
    simp only [allocLoopN] at h
    have hge := findFree_ge r c
    by_cases hd : d (fmtNum (findFree r c) ++ strLower (extname f)) = true
    · rw [if_pos hd] at h
      have := ih _ _ p h
      omega
    · rw [if_neg hd] at h
      rcases List.mem_cons.mp h with rfl | h
      · exact hge
      · have := ih _ _ p h
        omega

theorem allocLoopN_num_not_mem (d : String → Bool) :
    ∀ (l : List String) (c : ℕ) (r : Finset ℕ) (p : String × ℕ),
      p ∈ allocLoopN d l c r → p.2 ∉ r := by
  intro l
  induction l with
  | nil => intro c r p h; simp [allocLoopN] at h
  | cons f rest ih =>
    intro c r p h
    simp only [allocLoopN] at h
    by_cases hd : d (fmtNum (findFree r c) ++ strLower (extname f)) = true
    · rw [if_pos hd] at h
      intro hmem
      exact ih _ _ p h (Finset.mem_insert_of_mem hmem)
    · rw [if_neg hd] at h
      rcases List.mem_cons.mp h with rfl | h
      · exact findFree_not_mem r c
      · intro hmem
        exact ih _ _ p h (Finset.mem_insert_of_mem hmem)

/-- Assigned numbers strictly increase along the pair list, with or without
defensive skips. -/
theorem allocLoopN_pairwise (d : String → Bool) :
    ∀ (l : List String) (c : ℕ) (r : Finset ℕ),
      (allocLoopN d l c r).Pairwise (fun a b => a.2 < b.2) := by
  intro l
  induction l with
  | nil => intro c r; simp [allocLoopN]
  | cons f rest ih =>
    intro c r
    simp only [allocLoopN]
    by_cases hd : d (fmtNum (findFree r c) ++ strLower (extname f)) = true
    · rw [if_pos hd]
      exact ih _ _
    · rw [if_neg hd]
      refine List.pairwise_cons.mpr ⟨?_, ih _ _⟩
      intro p hp
      have := allocLoopN_num_ge d rest (findFree r c + 1) _ p hp
      omega

/-- The defensive check means no produced pair ever targets a name the
directory already holds: renaming never overwrites an existing file. -/
theorem allocLoop_no_overwrite (d : String → Bool) :
    ∀ (l : List String) (c : ℕ) (r : Finset ℕ) (p : RenamePair),
      p ∈ allocLoop d l c r → d p.dst = false := by
  intro l
  induction l with
  | nil => intro c r p h; simp [allocLoop] at h
  | cons f rest ih =>
    intro c r p h
    simp only [allocLoop] at h
    by_cases hd : d (fmtNum (findFree r c) ++ strLower (extname f)) = true
    · rw [if_pos hd] at h
      exact ih _ _ p h
    · rw [if_neg hd] at h
      rcases List.mem_cons.mp h with rfl | h
      · exact Bool.eq_false_iff.mpr hd
      · exact ih _ _ p h

/-- With no defensive skip (as many pairs as candidates), every candidate in
order receives the first number at or above the floor that is free in the
reserved set as it stands at its assignment: the initial reserved set plus
the numbers already assigned. -/
theorem allocLoopN_no_skip_spec (d : String → Bool) (floor : ℕ) :
    ∀ (l : List String) (c : ℕ) (r : Finset ℕ),
      (∀ m, floor ≤ m → m < c → m ∈ r) → floor ≤ c →
      (allocLoopN d l c r).length = l.length →
      ((allocLoopN d l c r).map Prod.fst = l ∧
       ∀ pre x post, allocLoopN d l c r = pre ++ x :: post →
         IsFirstFree (r ∪ (pre.map Prod.snd).toFinset) floor x.2) := by
  intro l
  induction l with
  | nil =>
    intro c r _ _ _
    refine ⟨rfl, ?_⟩
    intro pre x post h
    have := congrArg List.length h
    simp only [allocLoopN, List.length_nil, List.length_append, List.length_cons] at this
    omega
  | cons f rest ih =>
    intro c r hinv hf hlen
    simp only [allocLoopN] at hlen ⊢
    by_cases hd : d (fmtNum (findFree r c) ++ strLower (extname f)) = true
    · rw [if_pos hd] at hlen
      have := allocLoopN_length_le d rest (findFree r c + 1) (insert (findFree r c) r)
      simp only [List.length_cons] at hlen
      omega
    · rw [if_neg hd] at hlen ⊢
      simp only [List.length_cons] at hlen
      obtain ⟨hffge, hffnot, hffleast⟩ := findFree_spec r c
      have hinv' : ∀ m, floor ≤ m → m < findFree r c + 1 → m ∈ insert (findFree r c) r := by
        intro m h1 h2
        rcases Nat.lt_or_ge m (findFree r c) with h3 | h3
        · rcases Nat.lt_or_ge m c with h4 | h4
          · exact Finset.mem_insert_of_mem (hinv m h1 h4)
          · exact Finset.mem_insert_of_mem (hffleast m h4 h3)
        · have : m = findFree r c := by omega
          rw [this]
          exact Finset.mem_insert_self _ _
      obtain ⟨ih1, ih2⟩ := ih (findFree r c + 1) (insert (findFree r c) r) hinv'
        (by omega) (by omega)
      refine ⟨by simp [ih1], ?_⟩
      intro pre x post h
      cases pre with
      | nil =>
        simp only [List.nil_append, List.cons.injEq] at h
        rw [← h.1]
        refine ⟨by omega, by simp [hffnot], ?_⟩
        intro k h1 h2
        simp only [List.map_nil, List.toFinset_nil, Finset.union_empty]
        rcases Nat.lt_or_ge k c with h4 | h4
        · exact hinv k h1 h4
        · exact hffleast k h4 h2
      | cons y pre' =>
        simp only [List.cons_append, List.cons.injEq] at h
        have := ih2 pre' x post h.2
        have hset : insert (findFree r c) r ∪ (pre'.map Prod.snd).toFinset =
            r ∪ ((y :: pre').map Prod.snd).toFinset := by
          rw [← h.1]
          ext k
          simp only [Finset.mem_union, Finset.mem_insert, List.map_cons,
            List.toFinset_cons, List.mem_toFinset]
          tauto
        rw [← hset]
        exact this

/-! ### The natural comparator is total and transitive -/

theorem char_isDigit_false_iff (c : Char) :
    c.isDigit = false ↔ (c.toNat < 48 ∨ 57 < c.toNat) := by
  constructor
  · intro h
    by_cases hc : 48 ≤ c.toNat ∧ c.toNat ≤ 57
    · rw [(char_isDigit_iff c).mpr hc] at h
      exact absurd h (by simp)
    · omega
  · intro h
    rcases Bool.eq_false_or_eq_true c.isDigit with h2 | h2
    · have := (char_isDigit_iff c).mp h2
      omega
    · exact h2

theorem cmpN_lt_iff (m n : ℕ) : cmpN m n = Ordering.lt ↔ m < n := by
  unfold cmpN
  split_ifs <;> simp <;> omega

theorem cmpN_gt_iff (m n : ℕ) : cmpN m n = Ordering.gt ↔ n < m := by
  unfold cmpN
  split_ifs <;> simp <;> omega

theorem cmpN_eq_iff (m n : ℕ) : cmpN m n = Ordering.eq ↔ m = n := by
  unfold cmpN
  split_ifs <;> simp <;> omega

theorem cmpN_swap (m n : ℕ) : cmpN n m = (cmpN m n).swap := by
  unfold cmpN
  split_ifs <;> first | rfl | omega

/-- Comparing two digit code points against a non-digit code point gives the
same answer: the digit code points are contiguous. -/
theorem cmpN_cross (d₁ d₂ e : ℕ) (h₁ : 48 ≤ d₁ ∧ d₁ ≤ 57) (h₂ : 48 ≤ d₂ ∧ d₂ ≤ 57)
    (he : e < 48 ∨ 57 < e) : cmpN d₁ e = cmpN d₂ e := by
  unfold cmpN
  split_ifs <;> first | rfl | omega

/-- Well-formedness of a collation token: a numeric token remembers a digit
as its first character, a character token holds a non-digit. -/
def tokWF : NTok → Prop
  | NTok.num _ _ d => d.isDigit = true
  | NTok.chr c => c.isDigit = false

theorem natTokens_wf : ∀ (l : List Char) (t : NTok), t ∈ natTokens l → tokWF t := by
  intro l
  induction l with
  | nil => intro t h; simp [natTokens] at h
  | cons c cs ih =>
    intro t h
    simp only [natTokens] at h
    by_cases hc : c.isDigit = true
    · rw [if_pos hc] at h
      split at h
      · rename_i v len d rest heq
        rcases List.mem_cons.mp h with rfl | h
        · exact hc
        · exact ih t (by rw [heq]; exact List.mem_cons_of_mem _ h)
      · rcases List.mem_cons.mp h with rfl | h
        · exact hc
        · exact ih t h
    · rw [if_neg hc] at h
      rcases List.mem_cons.mp h with rfl | h
      · show (c.toLower).isDigit = false
        rw [char_toLower_isDigit]
        exact Bool.eq_false_iff.mpr hc
      · exact ih t h

theorem tokCmp_swap (a b : NTok) : tokCmp b a = (tokCmp a b).swap := by
  cases a <;> cases b <;> (simp only [tokCmp]; rw [cmpN_swap])

theorem tokCmp_lt_trans {a b c : NTok} (wa : tokWF a) (wb : tokWF b) (wc : tokWF c)
    (h1 : tokCmp a b = Ordering.lt) (h2 : tokCmp b c = Ordering.lt) :
    tokCmp a c = Ordering.lt := by
  cases a <;> cases b <;> cases c <;>
    simp only [tokCmp, tokWF, cmpN_lt_iff, char_isDigit_iff, char_isDigit_false_iff]
      at h1 h2 wa wb wc ⊢ <;>
    omega

theorem tokCmp_eq_congr {a b : NTok} (wa : tokWF a) (wb : tokWF b)
    (h : tokCmp a b = Ordering.eq) :
    ∀ u : NTok, tokWF u → tokCmp a u = tokCmp b u := by
  intro u wu
  cases a with
  | num v la da =>
    cases b with
    | num w lb db =>
      simp only [tokCmp, cmpN_eq_iff] at h
      cases u with
      | num x lu du => simp only [tokCmp, h]
      | chr e =>
        simp only [tokCmp]
        simp only [tokWF, char_isDigit_iff, char_isDigit_false_iff] at wa wb wu
        exact cmpN_cross _ _ _ wa wb wu
    | chr cb =>
      simp only [tokCmp, cmpN_eq_iff] at h
      simp only [tokWF, char_isDigit_iff, char_isDigit_false_iff] at wa wb
      omega
  | chr ca =>
    cases b with
    | num w lb db =>
      simp only [tokCmp, cmpN_eq_iff] at h
      simp only [tokWF, char_isDigit_iff, char_isDigit_false_iff] at wa wb
      omega
    | chr cb =>
      simp only [tokCmp, cmpN_eq_iff] at h
      cases u with
      | num x lu du => simp only [tokCmp, h]
      | chr e => simp only [tokCmp, h]

theorem listCmp_swap : ∀ (a b : List NTok), listCmp b a = (listCmp a b).swap := by
  intro a
  induction a with
  | nil =>
    intro b
    cases b <;> rfl
  | cons x xs ih =>
    intro b
    cases b with
    | nil => rfl
    | cons y ys =>
      cases h : tokCmp x y with
      | lt =>
        have hyx : tokCmp y x = Ordering.gt := by rw [tokCmp_swap x y, h]; rfl
        simp only [listCmp, h, hyx]
        rfl
      | gt =>
        have hyx : tokCmp y x = Ordering.lt := by rw [tokCmp_swap x y, h]; rfl
        simp only [listCmp, h, hyx]
        rfl
      | eq =>
        have hyx : tokCmp y x = Ordering.eq := by rw [tokCmp_swap x y, h]; rfl
        simp only [listCmp, h, hyx]
        exact ih ys

theorem listCmp_lt_trans : ∀ (la lb lc : List NTok),
    (∀ t ∈ la, tokWF t) → (∀ t ∈ lb, tokWF t) → (∀ t ∈ lc, tokWF t) →
    listCmp la lb = Ordering.lt → listCmp lb lc = Ordering.lt →
    listCmp la lc = Ordering.lt := by
  intro la
  induction la with
  | nil =>
    intro lb lc _ _ _ h1 h2
    cases lb with
    | nil => exact absurd h1 (by simp [listCmp])
    | cons b bs =>
      cases lc with
      | nil => exact absurd h2 (by simp [listCmp])
      | cons c cs => simp [listCmp]
  | cons a as ih =>
    intro lb lc wa wb wc h1 h2
    cases lb with
    | nil => exact absurd h1 (by simp [listCmp])
    | cons b bs =>
      cases lc with
      | nil => exact absurd h2 (by simp [listCmp])
      | cons c cs =>
        have wfa : tokWF a := wa a (List.mem_cons_self a as)
        have wfb : tokWF b := wb b (List.mem_cons_self b bs)
        have wfc : tokWF c := wc c (List.mem_cons_self c cs)
        simp only [listCmp] at h1 h2 ⊢
        cases hab : tokCmp a b with
        | gt => rw [hab] at h1; exact absurd h1 (by simp)
        | lt =>
          rw [hab] at h1
          cases hbc : tokCmp b c with
          | gt => rw [hbc] at h2; exact absurd h2 (by simp)
          | lt =>
            rw [tokCmp_lt_trans wfa wfb wfc hab hbc]
          | eq =>
            have : tokCmp a c = tokCmp a b := by
              have hsw := tokCmp_eq_congr wfb wfc hbc a wfa
              have h3 : (tokCmp a b).swap = (tokCmp a c).swap := by
                rw [← tokCmp_swap a b, ← tokCmp_swap a c]
                exact hsw
              have h4 := congrArg Ordering.swap h3
              rw [Ordering.swap_swap, Ordering.swap_swap] at h4
              exact h4.symm
            rw [this, hab]
        | eq =>
          rw [hab] at h1
          cases hbc : tokCmp b c with
          | gt => rw [hbc] at h2; exact absurd h2 (by simp)
          | lt =>
            rw [tokCmp_eq_congr wfa wfb hab c wfc, hbc]
          | eq =>
            rw [hbc] at h2
            rw [tokCmp_eq_congr wfa wfb hab c wfc, hbc]
            exact ih bs cs (fun t ht => wa t (List.mem_cons_of_mem a ht))
              (fun t ht => wb t (List.mem_cons_of_mem b ht))
              (fun t ht => wc t (List.mem_cons_of_mem c ht)) h1 h2

theorem listCmp_eq_congr : ∀ (la lb : List NTok),
    (∀ t ∈ la, tokWF t) → (∀ t ∈ lb, tokWF t) →
    listCmp la lb = Ordering.eq →
    ∀ u : List NTok, (∀ t ∈ u, tokWF t) → listCmp la u = listCmp lb u := by
  intro la
  induction la with
  | nil =>
    intro lb _ _ h u _
    cases lb with
    | nil => rfl
    | cons b bs => exact absurd h (by simp [listCmp])
  | cons a as ih =>
    intro lb wa wb h u wu
    cases lb with
    | nil => exact absurd h (by simp [listCmp])
    | cons b bs =>
      have wfa : tokWF a := wa a (List.mem_cons_self a as)
      have wfb : tokWF b := wb b (List.mem_cons_self b bs)
      simp only [listCmp] at h
      have hab : tokCmp a b = Ordering.eq := by
        cases habc : tokCmp a b with
        | eq => rfl
        | lt =>
          rw [habc] at h
          exact absurd h (by simp)
        | gt =>
          rw [habc] at h
          exact absurd h (by simp)
      rw [hab] at h
      cases u with
      | nil => rfl
      | cons c cs =>
        have wfc : tokWF c := wu c (List.mem_cons_self c cs)
        simp only [listCmp]
        rw [tokCmp_eq_congr wfa wfb hab c wfc]
        cases hbc : tokCmp b c with
        | lt => rfl
        | gt => rfl
        | eq =>
          exact ih bs (fun t ht => wa t (List.mem_cons_of_mem a ht))
            (fun t ht => wb t (List.mem_cons_of_mem b ht)) h cs
            (fun t ht => wu t (List.mem_cons_of_mem c ht))

/-- The sort comparator is total. -/
theorem natLE_total (a b : String) : natLE a b = true ∨ natLE b a = true := by
  unfold natLE natCmp
  cases h : listCmp (natTokens a.data) (natTokens b.data) with
  | lt => exact Or.inl rfl
  | eq => exact Or.inl rfl
  | gt =>
    right
    have hBA : listCmp (natTokens b.data) (natTokens a.data) = Ordering.lt := by
      rw [listCmp_swap, h]
      rfl
    simp only [hBA]

/-- The sort comparator is transitive. -/
theorem natLE_trans (a b c : String) (h1 : natLE a b = true) (h2 : natLE b c = true) :
    natLE a c = true := by
  unfold natLE natCmp at h1 h2 ⊢
  have wa := natTokens_wf a.data
  have wb := natTokens_wf b.data
  have wc := natTokens_wf c.data
  cases hab : listCmp (natTokens a.data) (natTokens b.data) with
  | gt => rw [hab] at h1; exact absurd h1 (by simp)
  | lt =>
    cases hbc : listCmp (natTokens b.data) (natTokens c.data) with
    | gt => rw [hbc] at h2; exact absurd h2 (by simp)
    | lt =>
      rw [listCmp_lt_trans _ _ _ wa wb wc hab hbc]
    | eq =>
      have : listCmp (natTokens a.data) (natTokens c.data) =
          listCmp (natTokens a.data) (natTokens b.data) := by
        have hcg := listCmp_eq_congr _ _ wb wc hbc (natTokens a.data) wa
        have h3 : (listCmp (natTokens a.data) (natTokens b.data)).swap =
            (listCmp (natTokens a.data) (natTokens c.data)).swap := by
          rw [← listCmp_swap, ← listCmp_swap]
          exact hcg
        have h4 := congrArg Ordering.swap h3
        rw [Ordering.swap_swap, Ordering.swap_swap] at h4
        exact h4.symm
      rw [this, hab]
  | eq =>
    rw [listCmp_eq_congr _ _ wa wb hab (natTokens c.data) wc]
    exact h2

/-! ### Two-phase rename lemmas -/

theorem phase1_mem_preserved (tmp : String → String) :
    ∀ (pairs : List RenamePair) (s : Finset String) (x : String),
      x ∈ s → (∀ p ∈ pairs, p.src ≠ x) → x ∈ phase1 tmp pairs s := by
  intro pairs
  induction pairs with
  | nil => intro s x hx _; exact hx
  | cons p ps ih =>
    intro s x hx hne
    show x ∈ phase1 tmp ps (renameFS s p.src (tmp p.src))
    apply ih
    · unfold renameFS
      exact Finset.mem_insert_of_mem
        (Finset.mem_erase.mpr ⟨fun he => hne p (List.mem_cons_self p ps) he.symm, hx⟩)
    · exact fun q hq => hne q (List.mem_cons_of_mem p hq)

theorem phase2_mem_preserved (tmp : String → String) :
    ∀ (pairs : List RenamePair) (s : Finset String) (x : String),
      x ∈ s → (∀ p ∈ pairs, tmp p.src ≠ x) → x ∈ phase2 tmp pairs s := by
  intro pairs
  induction pairs with
  | nil => intro s x hx _; exact hx
  | cons p ps ih =>
    intro s x hx hne
    show x ∈ phase2 tmp ps (renameFS s (tmp p.src) p.dst)
    apply ih
    · unfold renameFS
      exact Finset.mem_insert_of_mem
        (Finset.mem_erase.mpr ⟨fun he => hne p (List.mem_cons_self p ps) he.symm, hx⟩)
    · exact fun q hq => hne q (List.mem_cons_of_mem p hq)

/-- After phase 1, the filesystem holds exactly the untouched names plus the
temporary names: every batch source name has been vacated. -/
theorem phase1_eq (tmp : String → String) :
    ∀ (pairs : List RenamePair) (s : Finset String),
      (pairs.map (fun p => p.src)).Nodup →
      (∀ p ∈ pairs, p.src ∈ s) →
      (∀ p ∈ pairs, tmp p.src ∉ s) →
      (pairs.map (fun p => tmp p.src)).Nodup →
      phase1 tmp pairs s =
        (s \ (pairs.map (fun p => p.src)).toFinset) ∪
          (pairs.map (fun p => tmp p.src)).toFinset := by
  intro pairs
  induction pairs with
  | nil => intro s _ _ _ _; simp [phase1]
  | cons p ps ih =>
    intro s hnd hsub htf htnd
    have hpsrc : p.src ∈ s := hsub p (List.mem_cons_self p ps)
    have htp : tmp p.src ∉ s := htf p (List.mem_cons_self p ps)
    have hnd' : (ps.map (fun p => p.src)).Nodup := (List.nodup_cons.mp hnd).2
    have hhead : p.src ∉ ps.map (fun p => p.src) := (List.nodup_cons.mp hnd).1
    have htnd' : (ps.map (fun p => tmp p.src)).Nodup := (List.nodup_cons.mp htnd).2
    have hthead : tmp p.src ∉ ps.map (fun p => tmp p.src) := (List.nodup_cons.mp htnd).1
    have hs' : ∀ q ∈ ps, q.src ∈ renameFS s p.src (tmp p.src) := by
      intro q hq
      have h1 : q.src ∈ s := hsub q (List.mem_cons_of_mem p hq)
      have h2 : q.src ≠ p.src := by
        intro he
        exact hhead (he ▸ List.mem_map_of_mem (fun p => p.src) hq)
      exact Finset.mem_insert_of_mem (Finset.mem_erase.mpr ⟨h2, h1⟩)
    have ht' : ∀ q ∈ ps, tmp q.src ∉ renameFS s p.src (tmp p.src) := by
      intro q hq hmem
      rcases Finset.mem_insert.mp hmem with he | hmem2
      · exact hthead (he ▸ List.mem_map_of_mem (fun p => tmp p.src) hq)
      · exact htf q (List.mem_cons_of_mem p hq) (Finset.mem_of_mem_erase hmem2)
    have hrec := ih (renameFS s p.src (tmp p.src)) hnd' hs' ht' htnd'
    show phase1 tmp ps (renameFS s p.src (tmp p.src)) = _
    rw [hrec]
    have htp_ne_src : ∀ y ∈ ps.map (fun p => p.src), tmp p.src ≠ y := by
      intro y hy he
      obtain ⟨q, hq, hqe⟩ := List.mem_map.mp hy
      exact htf p (List.mem_cons_self p ps)
        (he ▸ hqe ▸ hsub q (List.mem_cons_of_mem p hq))
    ext x
    simp only [renameFS, List.map_cons, List.toFinset_cons, Finset.mem_union,
      Finset.mem_sdiff, Finset.mem_insert, Finset.mem_erase, List.mem_toFinset]
    constructor
    · rintro (⟨(rfl | ⟨hxne, hxs⟩), hxnot⟩ | hxt)
      · exact Or.inr (Or.inl rfl)
      · exact Or.inl ⟨hxs, by push_neg; exact ⟨hxne, hxnot⟩⟩
      · exact Or.inr (Or.inr hxt)
    · rintro (⟨hxs, hxnot⟩ | (rfl | hxt))
      · push_neg at hxnot
        exact Or.inl ⟨Or.inr ⟨hxnot.1, hxs⟩, hxnot.2⟩
      · exact Or.inl ⟨Or.inl rfl, fun hc => htp_ne_src _ hc rfl⟩
      · exact Or.inr hxt

/-- Phase 2 only ever adds final target names to the filesystem. -/
theorem phase2_subset (tmp : String → String) :
    ∀ (pairs : List RenamePair) (s : Finset String),
      phase2 tmp pairs s ⊆ s ∪ (pairs.map (fun p => p.dst)).toFinset := by
  intro pairs
  induction pairs with
  | nil => intro s; simp [phase2]
  | cons p ps ih =>
    intro s
    have h1 : phase2 tmp (p :: ps) s = phase2 tmp ps (renameFS s (tmp p.src) p.dst) := rfl
    rw [h1]
    refine (ih (renameFS s (tmp p.src) p.dst)).trans ?_
    intro x hx
    simp only [Finset.mem_union, renameFS, Finset.mem_insert, Finset.mem_erase,
      List.map_cons, List.toFinset_cons, List.mem_toFinset] at hx ⊢
    rcases hx with (rfl | ⟨_, hxs⟩) | hxd
    · exact Or.inr (Or.inl rfl)
    · exact Or.inl hxs
    · exact Or.inr (Or.inr hxd)

/-! ### Pipeline-level helper lemmas -/

theorem allocLoop_src_mem (d : String → Bool) (l : List String) (c : ℕ) (r : Finset ℕ)
    (p : RenamePair) (hp : p ∈ allocLoop d l c r) : p.src ∈ l := by
  rw [allocLoop_eq_mapN] at hp
  obtain ⟨q, hq, he⟩ := List.mem_map.mp hp
  have := allocLoopN_src_mem d l c r q hq
  rw [← he]
  exact this

/-- Every produced pair records its assigned number in the target name. -/
theorem allocLoop_dst_spec (d : String → Bool) (l : List String) (c : ℕ) (r : Finset ℕ)
    (p : RenamePair) (hp : p ∈ allocLoop d l c r) :
    ∃ n, (p.src, n) ∈ allocLoopN d l c r ∧
      p.dst = fmtNum n ++ strLower (extname p.src) ∧
      parseLeadingNumber p.dst = some n ∧ n ∉ r := by
  rw [allocLoop_eq_mapN] at hp
  obtain ⟨q, hq, he⟩ := List.mem_map.mp hp
  refine ⟨q.2, ?_, ?_, ?_, allocLoopN_num_not_mem d l c r q hq⟩
  · rw [← he]
    exact hq
  · rw [← he]
  · rw [← he]
    show parseLeadingNumber (fmtNumWith PAD q.2 ++ strLower (extname q.1)) = some q.2
    exact parse_fmt PAD q.2 _ (extShape_strLower _ (extShape_extname q.1))

theorem toRenumberSorted_mem (files : List String) (f : String) :
    f ∈ toRenumberSorted files ↔ f ∈ files ∧ isAlreadyNumbered f = false := by
  unfold toRenumberSorted
  rw [mem_isort, List.mem_filter]
  simp

theorem mem_reserved_init (files : List String) (n : ℕ) :
    n ∈ getReservedNumbers (alreadyNumberedOf files) ↔
      ∃ f ∈ files, parseLeadingNumber f = some n := by
  rw [mem_getReservedNumbers]
  unfold alreadyNumberedOf
  constructor
  · rintro ⟨f, hf, hp⟩
    exact ⟨f, (List.mem_filter.mp hf).1, hp⟩
  · rintro ⟨f, hf, hp⟩
    refine ⟨f, List.mem_filter.mpr ⟨hf, ?_⟩, hp⟩
    unfold isAlreadyNumbered
    rw [hp]
    rfl

/-- When the `existsSync` oracle agrees with the scanned listing and every
numeric value of the listing is reserved, the defensive check never fires:
every candidate yields a pair. -/
theorem allocLoopN_total_closed (files : List String) (d : String → Bool)
    (hd : ∀ s, d s = decide (s ∈ files)) :
    ∀ (l : List String) (c : ℕ) (r : Finset ℕ),
      (∀ f ∈ files, ∀ n, parseLeadingNumber f = some n → n ∈ r) →
      (allocLoopN d l c r).map Prod.fst = l := by
  intro l
  induction l with
  | nil => intro c r _; rfl
  | cons f rest ih =>
    intro c r hr
    simp only [allocLoopN]
    have hdf : d (fmtNum (findFree r c) ++ strLower (extname f)) = false := by
      rw [hd]
      by_cases hmem : (fmtNum (findFree r c) ++ strLower (extname f)) ∈ files
      · have hp : parseLeadingNumber (fmtNum (findFree r c) ++ strLower (extname f)) =
            some (findFree r c) :=
          parse_fmt PAD (findFree r c) _ (extShape_strLower _ (extShape_extname f))
        have := hr _ hmem (findFree r c) hp
        exact absurd this (findFree_not_mem r c)
      · simp [hmem]
    rw [if_neg (by rw [hdf]; simp)]
    simp only [List.map_cons]
    congr 1
    apply ih
    intro g hg n hn
    exact Finset.mem_insert_of_mem (hr g hg n hn)

theorem numberedOf_map_fst (files : List String) :
    (numberedOf files).map Prod.fst =
      files.filter (fun f => (parseLeadingNumber f).isSome) := by
  induction files with
  | nil => rfl
  | cons f fs ih =>
    unfold numberedOf at ih ⊢
    rw [List.filterMap_cons, List.filter_cons]
    cases h : parseLeadingNumber f with
    | some n =>
      simp only [h, Option.map_some', Option.isSome_some, List.map_cons, if_pos]
      rw [ih]
    | none =>
      simp only [h, Option.map_none', Option.isSome_none, List.map, if_neg]
      rw [ih]
      simp

theorem mem_numberedOf (files : List String) (x : String × ℕ) :
    x ∈ numberedOf files ↔ x.1 ∈ files ∧ parseLeadingNumber x.1 = some x.2 := by
  unfold numberedOf
  rw [List.mem_filterMap]
  constructor
  · rintro ⟨f, hf, hfx⟩
    cases h : parseLeadingNumber f with
    | some n =>
      rw [h] at hfx
      simp only [Option.map_some', Option.some.injEq] at hfx
      rw [← hfx]
      exact ⟨hf, h⟩
    | none =>
      rw [h] at hfx
      exact absurd hfx (by simp)
  · rintro ⟨hf, hx⟩
    exact ⟨x.1, hf, by rw [hx]; rfl⟩

theorem mem_otherOf (files : List String) (f : String) :
    f ∈ otherOf files ↔ f ∈ files ∧ parseLeadingNumber f = none := by
  unfold otherOf
  rw [List.mem_filter]
  simp [Option.isNone_iff_eq_none]

/-! ### Claim theorems -/

/-- C8: number formatting honours the padding configuration: with
`zeroPadWidth = 3` the number 20 renders as `"020"`, and with
`zeroPadWidth = 0` (the configured value `PAD`) every number renders as its
plain decimal digits with no padding. -/
theorem c8_padding :
    fmtNumWith 3 20 = "020" ∧
    fmtNum 20 = "20" ∧
    PAD = 0 ∧
    (∀ n : ℕ, fmtNumWith 0 n = natDecimal n) ∧
    (∀ n : ℕ, digitsToNat (fmtNumWith 0 n).data = n) := by
  refine ⟨by decide, by decide, rfl, fun n => rfl, fun n => ?_⟩
  exact fmtNumWith_val 0 n

/-- C9: leading-number parsing maps a purely-digit name to its integer value
ignoring leading zeros: `"007.jpg"` parses to 7 and is protected, and
`"0020.png"` reserves 20; protection and reservation depend only on the
parsed numeric value of a name, never on its exact digit string. -/
theorem c9_value_semantics :
    parseLeadingNumber "007.jpg" = some 7 ∧
    isProtectedFile "007.jpg" = true ∧
    parseLeadingNumber "0020.png" = some 20 ∧
    20 ∈ getReservedNumbers ["0020.png"] ∧
    (∀ f g, parseLeadingNumber f = parseLeadingNumber g →
      isProtectedFile f = isProtectedFile g) ∧
    (∀ f g (l : List String), parseLeadingNumber f = parseLeadingNumber g →
      getReservedNumbers (f :: l) = getReservedNumbers (g :: l)) := by
  refine ⟨by decide, by decide, by decide, by decide, ?_, ?_⟩
  · intro f g h
    unfold isProtectedFile
    rw [h]
  · intro f g l h
    ext n
    rw [mem_getReservedNumbers, mem_getReservedNumbers]
    constructor
    · rintro ⟨x, hx, hp⟩
      rcases List.mem_cons.mp hx with rfl | hx
      · exact ⟨g, List.mem_cons_self g l, h ▸ hp⟩
      · exact ⟨x, List.mem_cons_of_mem g hx, hp⟩
    · rintro ⟨x, hx, hp⟩
      rcases List.mem_cons.mp hx with rfl | hx
      · exact ⟨f, List.mem_cons_self f l, h ▸ hp⟩
      · exact ⟨x, List.mem_cons_of_mem f hx, hp⟩

/-- C9 witness: two names with the same numeric value, `"07.jpg"` and
`"7.jpg"`, receive the same protection status. -/
theorem c9_witness : isProtectedFile "07.jpg" = isProtectedFile "7.jpg" :=
  c9_value_semantics.2.2.2.2.1 "07.jpg" "7.jpg" (by decide)

/-- C10: the scanner includes exactly the regular files with a recognized
image extension; every rename source comes from the scanned listing and
every manifest entry points to a listed file, so a non-regular-file entry
(for example a subdirectory), even with an image-like name, reaches neither
classification, renaming nor the manifest. -/
theorem c10_scanner_only_regular_files :
    (∀ (entries : List Dirent) (name : String),
      name ∈ getAllPhotoFiles entries ↔
        (isPhoto name = true ∧ ∃ e ∈ entries, e.name = name ∧ e.isFile = true)) ∧
    (∀ (d : String → Bool) (files : List String) (p : RenamePair),
      p ∈ mainPairs d files → p.src ∈ files) ∧
    (∀ (files : List String) (e : ManifestEntry), e ∈ buildPhotoStream files →
      ∃ f ∈ files, e.src = "./photos/" ++ f) := by
  refine ⟨?_, ?_, ?_⟩
  · intro entries name
    unfold getAllPhotoFiles
    rw [List.mem_filter, List.mem_map]
    constructor
    · rintro ⟨⟨e, he, hname⟩, hphoto⟩
      have hm := List.mem_filter.mp he
      exact ⟨hphoto, e, hm.1, hname, hm.2⟩
    · rintro ⟨hphoto, e, he, hname, hfile⟩
      exact ⟨⟨e, List.mem_filter.mpr ⟨he, hfile⟩, hname⟩, hphoto⟩
  · intro d files p hp
    unfold mainPairs at hp
    have := allocLoop_src_mem d _ _ _ p hp
    exact ((toRenumberSorted_mem files p.src).mp this).1
  · intro files e he
    unfold buildPhotoStream at he
    obtain ⟨name, hname, hmk⟩ := List.mem_map.mp he
    rcases List.mem_append.mp hname with hn | hn
    · obtain ⟨x, hx, hfx⟩ := List.mem_map.mp hn
      have hxm := (mem_isort numLE x _).mp hx
      have hmem := (mem_numberedOf files x).mp hxm
      refine ⟨x.1, hmem.1, ?_⟩
      rw [← hmk, ← hfx]
    · have hmem := (mem_otherOf files name).mp ((mem_isort natLE name _).mp hn)
      refine ⟨name, hmem.1, ?_⟩
      rw [← hmk]

/-- C10 witness: in the run on the scenario directory, the source of the
first produced pair is indeed a listed file. -/
theorem c10_witness :
    ("beach.jpg" : String) ∈ ["5.jpg", "vacation.png", "beach.jpg", "20.webp"] :=
  c10_scanner_only_regular_files.2.1
    (fun s => decide (s ∈ ["5.jpg", "vacation.png", "beach.jpg", "20.webp"]))
    ["5.jpg", "vacation.png", "beach.jpg", "20.webp"]
    ⟨"beach.jpg", "21.jpg"⟩ (by decide)

/-- C1 counterexample: the claim says a candidate whose computed final name
collides with an existing entry "retries with the next cursor value" and
"still receives a numeric name".  In a run where the directory holds a
non-file entry named `20.jpg` (so `existsSync` sees it but the scan does
not), the sole candidate `photo.jpg` is a renumber candidate, its target
`20.jpg` collides, and the run produces no rename pair at all: the `continue`
statement abandons the candidate instead of retrying it. -/
theorem c1_counterexample :
    toRenumberSorted ["photo.jpg"] = ["photo.jpg"] ∧
    (fun s => s == "20.jpg" || s == "photo.jpg") "20.jpg" = true ∧
    mainPairs (fun s => s == "20.jpg" || s == "photo.jpg") ["photo.jpg"] = [] := by
  refine ⟨by decide, by decide, by decide⟩

/-- C1 amended: when the computed final name for a candidate already exists
in the directory, the allocator marks that number reserved and advances the
cursor, but moves on to the next candidate: the colliding candidate is
dropped from the batch and keeps its original name for this run (it receives
no numeric name).  No existing file is ever silently overwritten: every pair
the allocator emits targets a name the directory does not hold. -/
theorem c1_collision_drops_candidate (d : String → Bool) (f : String)
    (rest : List String) (c : ℕ) (r : Finset ℕ)
    (hcol : d (fmtNum (findFree r c) ++ strLower (extname f)) = true) :
    allocLoop d (f :: rest) c r =
      allocLoop d rest (findFree r c + 1) (insert (findFree r c) r) ∧
    (f ∉ rest → f ∉ (allocLoop d (f :: rest) c r).map (fun p => p.src)) ∧
    (∀ (l : List String) (c' : ℕ) (r' : Finset ℕ) (p : RenamePair),
      p ∈ allocLoop d l c' r' → d p.dst = false) := by
  have hstep : allocLoop d (f :: rest) c r =
      allocLoop d rest (findFree r c + 1) (insert (findFree r c) r) := by
    show (if d (fmtNum (findFree r c) ++ strLower (extname f)) = true
      then allocLoop d rest (findFree r c + 1) (insert (findFree r c) r)
      else ⟨f, fmtNum (findFree r c) ++ strLower (extname f)⟩ ::
        allocLoop d rest (findFree r c + 1) (insert (findFree r c) r)) = _
    rw [if_pos hcol]
  refine ⟨hstep, ?_, fun l c' r' p hp => allocLoop_no_overwrite d l c' r' p hp⟩
  intro hf hmem
  rw [hstep] at hmem
  obtain ⟨p, hp, he⟩ := List.mem_map.mp hmem
  have := allocLoop_src_mem d rest _ _ p hp
  rw [he] at this
  exact hf this

/-- C1 witness: in the collision run, the candidate `photo.jpg` appears in
no rename pair. -/
theorem c1_witness :
    "photo.jpg" ∉ (allocLoop (fun s => s == "20.jpg" || s == "photo.jpg")
      ["photo.jpg"] 20 ∅).map (fun p => p.src) :=
  (c1_collision_drops_candidate (fun s => s == "20.jpg" || s == "photo.jpg")
    "photo.jpg" [] 20 ∅ (by decide)).2.1 (by decide)

/-- C2: the allocator, run over any candidate list, floor and initial
reserved set without defensive skips (as many pairs as candidates), assigns
to each candidate in order the first number at or above the floor that is
not reserved at its assignment time (the initial reserved set plus the
numbers assigned so far), the assigned numbers strictly increase, and the
pairs are exactly these numbers formatted with the original lowercased
extension.  In the scenario directory `5.jpg, vacation.png, beach.jpg,
20.webp` with floor 20, the reserved set is `{5, 20}`, the sorted candidates
are `beach.jpg, vacation.png`, and the assignment is `beach.jpg → 21.jpg`,
`vacation.png → 22.png`. -/
theorem c2_allocator_first_free :
    (∀ (d : String → Bool) (l : List String) (c : ℕ) (r : Finset ℕ),
      allocLoop d l c r = (allocLoopN d l c r).map
        (fun p => ⟨p.1, fmtNum p.2 ++ strLower (extname p.1)⟩)) ∧
    (∀ (d : String → Bool) (cands : List String) (floor : ℕ) (res : Finset ℕ),
      (allocLoopN d cands floor res).length = cands.length →
      ((allocLoopN d cands floor res).map Prod.fst = cands ∧
       (allocLoopN d cands floor res).Pairwise (fun a b => a.2 < b.2) ∧
       (∀ pre x post, allocLoopN d cands floor res = pre ++ x :: post →
         IsFirstFree (res ∪ (pre.map Prod.snd).toFinset) floor x.2))) ∧
    (getReservedNumbers
        (alreadyNumberedOf ["5.jpg", "vacation.png", "beach.jpg", "20.webp"]) =
      {5, 20} ∧
     toRenumberSorted ["5.jpg", "vacation.png", "beach.jpg", "20.webp"] =
      ["beach.jpg", "vacation.png"] ∧
     mainPairs (fun s => decide (s ∈ ["5.jpg", "vacation.png", "beach.jpg", "20.webp"]))
        ["5.jpg", "vacation.png", "beach.jpg", "20.webp"] =
      [⟨"beach.jpg", "21.jpg"⟩, ⟨"vacation.png", "22.png"⟩]) := by
  refine ⟨allocLoop_eq_mapN, ?_, by decide, by decide, by decide⟩
  intro d cands floor res hlen
  obtain ⟨h1, h2⟩ := allocLoopN_no_skip_spec d floor cands floor res
    (fun m hm1 hm2 => absurd (hm1.trans_lt hm2) (lt_irrefl floor)) (le_refl floor) hlen
  exact ⟨h1, allocLoopN_pairwise d cands floor res, h2⟩

/-- C2 witness: the no-skip allocator specification applied to the scenario
allocation `beach.jpg, vacation.png` at floor 20 with reserved `{5, 20}`. -/
theorem c2_witness :
    (allocLoopN (fun s => decide (s ∈ ["5.jpg", "vacation.png", "beach.jpg", "20.webp"]))
      ["beach.jpg", "vacation.png"] 20 {5, 20}).map Prod.fst =
      ["beach.jpg", "vacation.png"] :=
  (c2_allocator_first_free.2.1
    (fun s => decide (s ∈ ["5.jpg", "vacation.png", "beach.jpg", "20.webp"]))
    ["beach.jpg", "vacation.png"] 20 {5, 20} (by decide)).1

/-- C7: every rename pair the allocator produces has as final name the
zero-padded-or-plain assigned integer followed by the candidate file's
original extension (lowercased, as the FileEntry extension attribute is);
parsing the final name recovers the assigned number. -/
theorem c7_final_name :
    (∀ (d : String → Bool) (l : List String) (c : ℕ) (r : Finset ℕ) (p : RenamePair),
      p ∈ allocLoop d l c r →
      ∃ n, (p.src, n) ∈ allocLoopN d l c r ∧
        p.dst = fmtNum n ++ strLower (extname p.src) ∧
        parseLeadingNumber p.dst = some n) ∧
    (∀ (d : String → Bool) (files : List String) (p : RenamePair),
      p ∈ mainPairs d files →
      ∃ n, p.dst = fmtNum n ++ strLower (extname p.src) ∧
        parseLeadingNumber p.dst = some n) := by
  constructor
  · intro d l c r p hp
    obtain ⟨n, h1, h2, h3, _⟩ := allocLoop_dst_spec d l c r p hp
    exact ⟨n, h1, h2, h3⟩
  · intro d files p hp
    unfold mainPairs at hp
    obtain ⟨n, _, h2, h3, _⟩ := allocLoop_dst_spec d _ _ _ p hp
    exact ⟨n, h2, h3⟩

/-- C7 witness: the scenario pair `beach.jpg → 21.jpg` has the required
shape. -/
theorem c7_witness :
    ∃ n, ("21.jpg" : String) = fmtNum n ++ strLower (extname "beach.jpg") ∧
      parseLeadingNumber "21.jpg" = some n :=
  c7_final_name.2
    (fun s => decide (s ∈ ["5.jpg", "vacation.png", "beach.jpg", "20.webp"]))
    ["5.jpg", "vacation.png", "beach.jpg", "20.webp"]
    ⟨"beach.jpg", "21.jpg"⟩ (by decide)

/-- C3: a file whose name minus extension is purely digits — protected range
or not — is never renamed: it is the source of no pair, the target of no
pair, and it is still present under its exact name after the two-phase
rename of the produced batch. -/
theorem c3_numeric_untouched (d : String → Bool) (allFiles : List String) (f : String)
    (hf : f ∈ allFiles) (hnum : isAlreadyNumbered f = true) :
    f ∉ (mainPairs d allFiles).map (fun p => p.src) ∧
    f ∉ (mainPairs d allFiles).map (fun p => p.dst) ∧
    (∀ (s : Finset String) (tmp : String → String), f ∈ s →
      (∀ p ∈ mainPairs d allFiles, tmp p.src ≠ f) →
      f ∈ renameSafely tmp (mainPairs d allFiles) s) := by
  have hsrc : ∀ p ∈ mainPairs d allFiles, p.src ≠ f := by
    intro p hp he
    unfold mainPairs at hp
    have hmem := allocLoop_src_mem d _ _ _ p hp
    have hnn := ((toRenumberSorted_mem allFiles p.src).mp hmem).2
    rw [he, hnum] at hnn
    exact absurd hnn (by simp)
  refine ⟨?_, ?_, ?_⟩
  · intro hmem
    obtain ⟨p, hp, he⟩ := List.mem_map.mp hmem
    exact hsrc p hp he
  · intro hmem
    obtain ⟨p, hp, he⟩ := List.mem_map.mp hmem
    unfold mainPairs at hp
    obtain ⟨n, _, _, hparse, hnot⟩ := allocLoop_dst_spec d _ _ _ p hp
    obtain ⟨m, hm⟩ : ∃ m, parseLeadingNumber f = some m := by
      unfold isAlreadyNumbered at hnum
      exact Option.isSome_iff_exists.mp hnum
    have hmres : m ∈ getReservedNumbers (alreadyNumberedOf allFiles) :=
      (mem_reserved_init allFiles m).mpr ⟨f, hf, hm⟩
    rw [he, hm] at hparse
    have hnm : m = n := by
      simp only [Option.some.injEq] at hparse
      exact hparse
    exact hnot (hnm ▸ hmres)
  · intro s tmp hfs htmp
    unfold renameSafely
    apply phase2_mem_preserved tmp _ _ f
    · exact phase1_mem_preserved tmp _ s f hfs hsrc
    · exact htmp

/-- C3 witness: the protected file `007.jpg` survives a run over
`007.jpg, IMG.jpg` untouched. -/
theorem c3_witness :
    ("007.jpg" : String) ∈ renameSafely (fun x => "Tmp" ++ x)
      (mainPairs (fun _ => false) ["007.jpg", "IMG.jpg"])
      {"007.jpg", "IMG.jpg"} :=
  (c3_numeric_untouched (fun _ => false) ["007.jpg", "IMG.jpg"] "007.jpg"
    (by decide) (by decide)).2.2 {"007.jpg", "IMG.jpg"} (fun x => "Tmp" ++ x)
    (by decide) (by decide)

/-- C4: the renamer is two-phase.  When sources are distinct and present,
temporary names are unique, fresh, and distinct from targets, targets are
distinct, and every target either is free or coincides with a batch source
(as pre-validated by the allocator): after phase 1 every source name is
vacated, and no phase-2 rename finds its target present — in particular a
target equal to another pair's source is free, because that source moved to
its temporary name in phase 1. -/
theorem c4_two_phase (tmp : String → String) (pairs : List RenamePair)
    (s : Finset String)
    (hsrc_nd : (pairs.map (fun p => p.src)).Nodup)
    (hsrc_sub : ∀ p ∈ pairs, p.src ∈ s)
    (htmp_nd : (pairs.map (fun p => tmp p.src)).Nodup)
    (htmp_fresh : ∀ p ∈ pairs, tmp p.src ∉ s)
    (htmp_dst : ∀ p ∈ pairs, ∀ q ∈ pairs, tmp p.src ≠ q.dst)
    (hdst_nd : (pairs.map (fun p => p.dst)).Nodup)
    (hdst_free : ∀ p ∈ pairs, p.dst ∈ s → p.dst ∈ pairs.map (fun q => q.src)) :
    (∀ q ∈ pairs, q.src ∉ phase1 tmp pairs s) ∧
    (∀ pre x post, pairs = pre ++ x :: post →
      x.dst ∉ phase2 tmp pre (phase1 tmp pairs s)) := by
  have hP1 := phase1_eq tmp pairs s hsrc_nd hsrc_sub htmp_fresh htmp_nd
  constructor
  · intro q hq
    rw [hP1]
    intro hmem
    rcases Finset.mem_union.mp hmem with h1 | h1
    · exact (Finset.mem_sdiff.mp h1).2
        (List.mem_toFinset.mpr (List.mem_map_of_mem (fun p => p.src) hq))
    · obtain ⟨p, hp, hpe⟩ := List.mem_map.mp (List.mem_toFinset.mp h1)
      exact htmp_fresh p hp (hpe ▸ hsrc_sub q hq)
  · intro pre x post hsplit hmem
    have hx : x ∈ pairs := by
      rw [hsplit]
      exact List.mem_append_right pre (List.mem_cons_self x post)
    have hsub2 := phase2_subset tmp pre (phase1 tmp pairs s) hmem
    rcases Finset.mem_union.mp hsub2 with h1 | h1
    · rw [hP1] at h1
      rcases Finset.mem_union.mp h1 with h2 | h2
      · have hfree := hdst_free x hx (Finset.mem_sdiff.mp h2).1
        exact (Finset.mem_sdiff.mp h2).2 (List.mem_toFinset.mpr hfree)
      · obtain ⟨p, hp, hpe⟩ := List.mem_map.mp (List.mem_toFinset.mp h2)
        exact htmp_dst p hp x hx hpe
    · have hmap : pairs.map (fun p => p.dst) =
          pre.map (fun p => p.dst) ++ x.dst :: post.map (fun p => p.dst) := by
        rw [hsplit]
        simp
      rw [hmap] at hdst_nd
      have hdisj := (List.nodup_append.mp hdst_nd).2.2
      exact hdisj (List.mem_toFinset.mp h1) (List.mem_cons_self _ _)

/-- C4 witness: in the batch `a.jpg → b.jpg`, `b.jpg → c.jpg` over the
directory `{a.jpg, b.jpg}`, the first phase-2 target `b.jpg` — which is also
the second pair's source — is not present after phase 1. -/
theorem c4_witness :
    ("b.jpg" : String) ∉ phase2 (fun x => "T" ++ x) []
      (phase1 (fun x => "T" ++ x)
        [⟨"a.jpg", "b.jpg"⟩, ⟨"b.jpg", "c.jpg"⟩] {"a.jpg", "b.jpg"}) :=
  (c4_two_phase (fun x => "T" ++ x) [⟨"a.jpg", "b.jpg"⟩, ⟨"b.jpg", "c.jpg"⟩]
    {"a.jpg", "b.jpg"} (by decide) (by decide) (by decide) (by decide) (by decide)
    (by decide) (by decide)).2 [] ⟨"a.jpg", "b.jpg"⟩ [⟨"b.jpg", "c.jpg"⟩] (by decide)

/-- C5: with the directory consistent with the scan (the `existsSync` oracle
agrees with the listing) and no external changes, the first run renames
every candidate, so every file of the post-run listing has a purely numeric
name; the second run therefore has no candidates and performs zero
renames — whatever its oracle. -/
theorem c5_second_run_is_noop (allFiles : List String) (d1 : String → Bool)
    (hd1 : ∀ str, d1 str = decide (str ∈ allFiles))
    (files2 : List String)
    (h2 : ∀ f ∈ files2,
      (f ∈ allFiles ∧ f ∉ (mainPairs d1 allFiles).map (fun p => p.src)) ∨
      f ∈ (mainPairs d1 allFiles).map (fun p => p.dst)) :
    (mainPairs d1 allFiles).map (fun p => p.src) = toRenumberSorted allFiles ∧
    (∀ f ∈ files2, isAlreadyNumbered f = true) ∧
    toRenumberSorted files2 = [] ∧
    (∀ d2 : String → Bool, mainPairs d2 files2 = []) := by
  have hr0 : ∀ f ∈ allFiles, ∀ n, parseLeadingNumber f = some n →
      n ∈ getReservedNumbers (alreadyNumberedOf allFiles) :=
    fun f hf n hn => (mem_reserved_init allFiles n).mpr ⟨f, hf, hn⟩
  have hsrc_eq : (mainPairs d1 allFiles).map (fun p => p.src) =
      toRenumberSorted allFiles := by
    unfold mainPairs
    rw [allocLoop_eq_mapN, List.map_map]
    have hcomp : ((fun p : RenamePair => p.src) ∘
        (fun p : String × ℕ =>
          (⟨p.1, fmtNum p.2 ++ strLower (extname p.1)⟩ : RenamePair))) =
        Prod.fst := rfl
    rw [hcomp]
    exact allocLoopN_total_closed allFiles d1 hd1 _ _ _ hr0
  have hall : ∀ f ∈ files2, isAlreadyNumbered f = true := by
    intro f hf
    rcases h2 f hf with ⟨hmem, hnot⟩ | hdst
    · by_contra hnn
      have hfalse : isAlreadyNumbered f = false := Bool.eq_false_iff.mpr hnn
      exact hnot (hsrc_eq ▸ (toRenumberSorted_mem allFiles f).mpr ⟨hmem, hfalse⟩)
    · obtain ⟨p, hp, he⟩ := List.mem_map.mp hdst
      unfold mainPairs at hp
      obtain ⟨n, _, _, hparse, _⟩ := allocLoop_dst_spec d1 _ _ _ p hp
      unfold isAlreadyNumbered
      rw [← he, hparse]
      rfl
  have hempty : toRenumberSorted files2 = [] := by
    unfold toRenumberSorted
    have hfil : files2.filter (fun f => !(isAlreadyNumbered f)) = [] := by
      rw [List.filter_eq_nil_iff]
      intro a ha
      rw [hall a ha]
      simp
    rw [hfil]
    rfl
  refine ⟨hsrc_eq, hall, hempty, ?_⟩
  intro d2
  unfold mainPairs
  rw [hempty]
  rfl

/-- C5 witness: after the scenario run, the resulting listing has only
numeric names and a second run produces no rename pairs. -/
theorem c5_witness :
    mainPairs (fun _ => false) ["5.jpg", "21.jpg", "22.png", "20.webp"] = [] :=
  (c5_second_run_is_noop ["5.jpg", "vacation.png", "beach.jpg", "20.webp"]
    (fun str => decide (str ∈ ["5.jpg", "vacation.png", "beach.jpg", "20.webp"]))
    (fun _ => rfl)
    ["5.jpg", "21.jpg", "22.png", "20.webp"] (by decide)).2.2.2 (fun _ => false)

/-- C6: the manifest builder orders any fixed final listing totally and
deterministically: it is exactly the numeric-named entries sorted ascending
by parsed integer value followed by the non-numeric names sorted by the
numeric-aware natural comparison, a permutation of the listing, every entry
carrying the constant label; the final directory `1.png, 3.jpg, 20.jpg`
yields manifest order `[1.png, 3.jpg, 20.jpg]`. -/
theorem c6_manifest_total_order :
    (∀ files : List String,
      buildPhotoStream files =
        ((isort numLE (numberedOf files)).map (fun x => x.1) ++
            isort natLE (otherOf files)).map
          (fun name => ⟨"./photos/" ++ name, LABEL⟩) ∧
      ((isort numLE (numberedOf files)).map (fun x => x.1) ++
          isort natLE (otherOf files)).Perm files ∧
      (isort numLE (numberedOf files)).Pairwise (fun a b => a.2 ≤ b.2) ∧
      (∀ x ∈ numberedOf files, parseLeadingNumber x.1 = some x.2) ∧
      (isort natLE (otherOf files)).Pairwise (fun a b => natLE a b = true) ∧
      (∀ f ∈ otherOf files, parseLeadingNumber f = none) ∧
      (∀ e ∈ buildPhotoStream files, e.label = LABEL)) ∧
    (buildPhotoStream ["3.jpg", "1.png", "20.jpg"]).map (fun e => e.src) =
      ["./photos/1.png", "./photos/3.jpg", "./photos/20.jpg"] := by
  refine ⟨?_, by decide⟩
  intro files
  have hperm : ((isort numLE (numberedOf files)).map (fun x => x.1) ++
      isort natLE (otherOf files)).Perm files := by
    have hA : ((isort numLE (numberedOf files)).map (fun x => x.1)).Perm
        ((numberedOf files).map (fun x => x.1)) :=
      (isort_perm numLE (numberedOf files)).map (fun x => x.1)
    have hB : (isort natLE (otherOf files)).Perm (otherOf files) :=
      isort_perm natLE (otherOf files)
    refine (hA.append hB).trans ?_
    have hfst : (numberedOf files).map (fun x => x.1) =
        files.filter (fun f => (parseLeadingNumber f).isSome) :=
      numberedOf_map_fst files
    have hoth : otherOf files =
        files.filter (fun f => !(parseLeadingNumber f).isSome) := by
      unfold otherOf
      apply List.filter_congr
      intro a _
      cases parseLeadingNumber a <;> rfl
    rw [hfst, hoth]
    exact List.filter_append_perm (fun f => (parseLeadingNumber f).isSome) files
  have hnumtot : ∀ a b : String × ℕ, numLE a b = true ∨ numLE b a = true := by
    intro a b
    unfold numLE
    rcases Nat.le_total a.2 b.2 with h | h
    · exact Or.inl (decide_eq_true h)
    · exact Or.inr (decide_eq_true h)
  have hnumtrans : ∀ a b c : String × ℕ,
      numLE a b = true → numLE b c = true → numLE a c = true := by
    intro a b c h1 h2
    unfold numLE at h1 h2 ⊢
    exact decide_eq_true (Nat.le_trans (of_decide_eq_true h1) (of_decide_eq_true h2))
  refine ⟨rfl, hperm, ?_, ?_, ?_, ?_, ?_⟩
  · exact (isort_pairwise numLE hnumtot hnumtrans (numberedOf files)).imp
      (fun h => of_decide_eq_true h)
  · exact fun x hx => ((mem_numberedOf files x).mp hx).2
  · exact isort_pairwise natLE natLE_total natLE_trans (otherOf files)
  · exact fun f hf => ((mem_otherOf files f).mp hf).2
  · intro e he
    obtain ⟨name, _, hmk⟩ := List.mem_map.mp he
    rw [← hmk]

/-- C6 witness: the numeric entry `(3.jpg, 3)` of the example listing parses
to its recorded value. -/
theorem c6_witness : parseLeadingNumber "3.jpg" = some 3 :=
  (c6_manifest_total_order.1 ["3.jpg", "1.png", "20.jpg"]).2.2.2.1
    ("3.jpg", 3) (by decide)

end Photo123
